import Mathlib

/-!
Verification of the filesystem MCP server's boundary validator and
operation engine.  Go strings are embedded as `List Char` (byte/rune
sequences); absolute cleaned paths are additionally manipulated as lists
of path segments (`List (List Char)`), mirroring how Go's
`path/filepath` functions (`Clean`, `Rel`) scan a path separator by
separator.  The filesystem is an abstract map from path strings to
entries; symlink resolution (`filepath.EvalSymlinks`) is an abstract
resolution function supplied by the environment.
-/

namespace GoFs

instance {ε α : Type} [DecidableEq ε] [DecidableEq α] :
    DecidableEq (Except ε α)
  | .ok a, .ok b => decidable_of_iff (a = b) (by simp)
  | .ok _, .error _ => isFalse (by simp)
  | .error _, .ok _ => isFalse (by simp)
  | .error e, .error f => decidable_of_iff (e = f) (by simp)

/-- A Go string: a sequence of characters. -/
abbrev GoStr := List Char

/-- A path segment (the text between two separators). -/
abbrev Seg := List Char

/-- Shorthand to turn a Lean string literal into a Go string. -/
def gs (s : String) : GoStr := s.toList

/-- Split a Go string on the path separator, as Go does when scanning a
path element by element.  `splitSlash "/a/b" = ["", "a", "b"]`. -/
def splitSlash : GoStr → List Seg
  | [] => [[]]
  | c :: rest =>
    if c = '/' then [] :: splitSlash rest
    else
      match splitSlash rest with
      | l :: ls => (c :: l) :: ls
      | [] => [[c]]

/-- The segment-level core of `filepath.Clean` on an absolute path:
empty and `.` segments are dropped, `..` pops the previous segment (at
the root it is dropped, as `Clean("/..") = "/"`).  `acc` holds the
output segments in reverse. -/
def cleanAbsAux (acc : List Seg) : List Seg → List Seg
  | [] => acc.reverse
  | s :: rest =>
    if s = [] ∨ s = gs "." then cleanAbsAux acc rest
    else if s = gs ".." then cleanAbsAux acc.tail rest
    else cleanAbsAux (s :: acc) rest

/-- `filepath.Clean` of an absolute path, on its segment list. -/
def cleanAbsSegs (l : List Seg) : List Seg := cleanAbsAux [] l

/-- Segments of `filepath.Clean` of an absolute path string. -/
def cleanSegs (s : GoStr) : List Seg := cleanAbsSegs (splitSlash s)

/-- Join segments with the path separator (no leading separator),
exactly how Go's `filepath.Rel` assembles its result string. -/
def joinPath : List Seg → GoStr
  | [] => []
  | [s] => s
  | s :: rest => s ++ '/' :: joinPath rest

/-- Render an absolute path from its cleaned segments
(`joinAbs [] = "/"`). -/
def joinAbs (segs : List Seg) : GoStr := '/' :: joinPath segs

/-- Strip the longest common segment prefix of two paths, the way
`filepath.Rel` positions itself at the first differing elements. -/
def dropCommonPrefixSegs : List Seg → List Seg → List Seg × List Seg
  | x :: xs, y :: ys =>
    if x = y then dropCommonPrefixSegs xs ys else (x :: xs, y :: ys)
  | xs, ys => (xs, ys)

/-- `filepath.Rel(base, targ)` for two cleaned absolute paths given as
segment lists: `"."` when equal, otherwise one `".."` per remaining
base segment followed by the remaining target segments; `none` is the
error case (first remaining base element is itself `..`). -/
def goRel (base targ : List Seg) : Option GoStr :=
  if base = targ then some (gs ".")
  else
    match dropCommonPrefixSegs base targ with
    | (b :: bs, t) =>
      if b = gs ".." then none
      else some (joinPath (List.replicate (b :: bs).length (gs "..") ++ t))
    | ([], t) => some (joinPath t)

/-- Source `PathValidator.isPathUnderDirectory`: `rel, err :=
filepath.Rel(dir, path); return err == nil &&
!strings.HasPrefix(rel, "..")`. -/
def isPathUnderDirectory (path dir : List Seg) : Bool :=
  match goRel dir path with
  | some rel => !((gs "..").isPrefixOf rel)
  | none => false

/-- The validator's static state: the normalized allowed directories
(`NewPathValidator` cleans each configured directory). -/
structure PathValidator where
  allowedDirectories : List (List Seg)

/-- Source `PathValidator.isPathAllowed`: clean the candidate again and
test it against each allowed directory. -/
def isPathAllowed (pv : PathValidator) (absolutePath : List Seg) : Bool :=
  pv.allowedDirectories.any fun allowedDir =>
    isPathUnderDirectory (cleanAbsSegs absolutePath) allowedDir

/-- The ambient process environment a validation call sees: the symlink
resolver (`filepath.EvalSymlinks`, `none` = resolution error), the
caller's home directory (`none` = `os.UserHomeDir` failed) and the
working directory. -/
structure ValEnv where
  resolve : List Seg → Option (List Seg)
  home : Option GoStr
  cwd : GoStr

/-- Errors of the validator and the operation engine, one constructor
per distinct `fmt.Errorf` site the claims exercise. -/
inductive GoErr where
  | emptyPath
  | outsideAllowed
  | symlinkOutside
  | parentNotExist
  | parentOutside
  | statFailed
  | fileTooLarge
  | readFailed
  | noPaths
  | noEdits
  | couldNotApplyEdit (n : Nat)
  | sourceEmpty
  | destEmpty
  | destinationExists
  | moveFailed
  | emptyPattern
  | readDirFailed
  | maxDepthExceeded
  | fuelExhausted
  deriving DecidableEq, Repr

/-- Source `security.ExpandHomePath`. -/
def ExpandHomePath (home : Option GoStr) (path : GoStr) : GoStr :=
  if path = gs "~" then
    match home with
    | some h => h
    | none => path
  else if path.take 2 = gs "~/" then
    match home with
    | some h => joinAbs (cleanAbsSegs (splitSlash (h ++ '/' :: path.drop 2)))
    | none => path
  else path

/-- `filepath.IsAbs` on Unix: the path starts with the separator. -/
def isAbsStr (s : GoStr) : Bool :=
  match s with
  | c :: _ => c == '/'
  | [] => false

/-- `filepath.Dir` on a cleaned absolute path, segment level. -/
def dirSegs (p : List Seg) : List Seg := p.dropLast

/-- Source `PathValidator.validateRealPath`: resolve symlinks and
re-check containment; for a nonexistent final component, resolve and
check the parent instead and return the original absolute path. -/
def validateRealPath (env : ValEnv) (pv : PathValidator)
    (absolutePath : List Seg) : Except GoErr GoStr :=
  match env.resolve absolutePath with
  | some realPath =>
    if !isPathAllowed pv realPath then .error .symlinkOutside
    else .ok (joinAbs realPath)
  | none =>
    match env.resolve (dirSegs absolutePath) with
    | none => .error .parentNotExist
    | some realParentPath =>
      if !isPathAllowed pv realParentPath then .error .parentOutside
      else .ok (joinAbs absolutePath)

/-- Source `PathValidator.ValidatePath`: reject empty input, expand a
home prefix, make the path absolute and clean it, check containment,
then resolve symlinks via `validateRealPath`. -/
def ValidatePath (env : ValEnv) (pv : PathValidator)
    (requestedPath : GoStr) : Except GoErr GoStr :=
  if requestedPath = [] then .error .emptyPath
  else
    let expandedPath := ExpandHomePath env.home requestedPath
    let absolutePath : List Seg :=
      if isAbsStr expandedPath then cleanSegs expandedPath
      else cleanAbsSegs (splitSlash (env.cwd ++ '/' :: expandedPath))
    if !isPathAllowed pv absolutePath then .error .outsideAllowed
    else validateRealPath env pv absolutePath

/-- Specification-side notion (sec. 4.1 of the spec): a cleaned absolute
path is equal to, or a path-separator-bounded descendant of, a
directory exactly when the directory's segment list is a prefix of the
path's segment list. -/
def SpecSepBoundedDescendant (dir path : List Seg) : Prop := dir <+: path

/-- A well-formed segment of a cleaned absolute path: nonempty, not a
dot segment, and free of the separator. -/
def WfSeg (s : Seg) : Prop :=
  s ≠ [] ∧ s ≠ gs "." ∧ s ≠ gs ".." ∧ '/' ∉ s

instance (s : Seg) : Decidable (WfSeg s) := by
  unfold WfSeg; infer_instance

/-! Operation engine (`pkg/filesystem/operations.go`).  The live
filesystem is a map from path strings to entries; sizes are byte
counts, represented by the length of the content. -/

/-- Source constant `maxReadSize` (1 MiB). -/
def maxReadSize : Nat := 1 * 1024 * 1024

/-- Source constant `maxTreeDepth`. -/
def maxTreeDepth : Nat := 20

/-- A filesystem entry: a regular file with its content, or a
directory. -/
inductive FsEntry where
  | file (content : GoStr)
  | dir
  deriving DecidableEq, Repr

/-- The live filesystem, as the operation engine observes it through
`os.Stat` / `os.ReadFile` / `os.WriteFile`. -/
def Fs : Type := GoStr → Option FsEntry

/-- What `os.Stat` reports: size and directory flag. -/
structure StatInfo where
  size : Nat
  isDir : Bool
  deriving DecidableEq, Repr

/-- `os.Stat`: fails on the empty path and on missing entries. -/
def statFs (fs : Fs) (p : GoStr) : Option StatInfo :=
  if p = [] then none
  else
    match fs p with
    | some (.file c) => some ⟨c.length, false⟩
    | some .dir => some ⟨0, true⟩
    | none => none

/-- `os.ReadFile` on a regular file. -/
def readFs (fs : Fs) (p : GoStr) : Option GoStr :=
  match fs p with
  | some (.file c) => some c
  | _ => none

/-- `os.WriteFile` / rename target update. -/
def updateFs (fs : Fs) (p : GoStr) (e : FsEntry) : Fs :=
  fun q => if q = p then some e else fs q

/-- Removal of one path. -/
def removeFs (fs : Fs) (p : GoStr) : Fs :=
  fun q => if q = p then none else fs q

/-- Source `Operations.ReadFile`: empty-path check, stat, size-ceiling
check against `maxReadSize`, then the read.  Note that no boundary
validation happens here; the caller is expected to have validated. -/
def ReadFile (fs : Fs) (filePath : GoStr) : Except GoErr GoStr :=
  if filePath = [] then .error .emptyPath
  else
    match statFs fs filePath with
    | none => .error .statFailed
    | some info =>
      if info.size > maxReadSize then .error .fileTooLarge
      else
        match readFs fs filePath with
        | some data => .ok data
        | none => .error .readFailed

/-- The Go error message rendered into the per-file error line of
`ReadMultipleFiles`. -/
def errText : GoErr → GoStr
  | .emptyPath => gs "file path cannot be empty"
  | .statFailed => gs "failed to stat file"
  | .fileTooLarge => gs "file exceeds maximum allowed size"
  | .readFailed => gs "failed to read file"
  | .outsideAllowed => gs "access denied - path outside allowed directories"
  | _ => gs "error"

/-- `strings.Join` with an arbitrary separator. -/
def joinWithSep (sep : GoStr) : List GoStr → GoStr
  | [] => []
  | [x] => x
  | x :: xs => x ++ sep ++ joinWithSep sep xs

/-- Source `Operations.ReadMultipleFiles`: reads each path with
`ReadFile`, capturing per-path failures as inline error lines. -/
def ReadMultipleFiles (fs : Fs) (filePaths : List GoStr) : Except GoErr GoStr :=
  if filePaths = [] then .error .noPaths
  else
    .ok (joinWithSep (gs "\n---\n")
      (filePaths.map fun filePath =>
        match ReadFile fs filePath with
        | .error e => filePath ++ gs ": Error - " ++ errText e
        | .ok content => filePath ++ gs ":\n" ++ content ++ gs "\n"))

/-- Source `Operations.WriteFile`: empty-path check, then
`os.WriteFile` of the whole content.  The source has no size ceiling
here. -/
def WriteFile (fs : Fs) (filePath content : GoStr) : Except GoErr Unit × Fs :=
  if filePath = [] then (.error .emptyPath, fs)
  else (.ok (), updateFs fs filePath (.file content))

/-- Source `Operations.normalizeLineEndings`:
`strings.ReplaceAll(text, CRLF, LF)`. -/
def normalizeLineEndings : GoStr → GoStr
  | [] => []
  | '\r' :: '\n' :: rest => '\n' :: normalizeLineEndings rest
  | c :: rest => c :: normalizeLineEndings rest

/-- `strings.Contains`. -/
def strContains (s sub : GoStr) : Bool :=
  if sub.isPrefixOf s then true
  else
    match s with
    | [] => false
    | _ :: rest => strContains rest sub

/-- `strings.Replace(s, old, new, 1)`: replace the first occurrence. -/
def replaceFirst (s old new : GoStr) : GoStr :=
  if old.isPrefixOf s then new ++ s.drop old.length
  else
    match s with
    | [] => []
    | c :: rest => c :: replaceFirst rest old new

/-- `strings.Split(s, LF)`. -/
def splitNl : GoStr → List GoStr
  | [] => [[]]
  | c :: rest =>
    if c = '\n' then [] :: splitNl rest
    else
      match splitNl rest with
      | l :: ls => (c :: l) :: ls
      | [] => [[c]]

/-- `strings.Join(lines, LF)`. -/
def joinNl : List GoStr → GoStr
  | [] => []
  | [l] => l
  | l :: ls => l ++ '\n' :: joinNl ls

/-- Whitespace as `strings.TrimSpace` sees it (ASCII subset). -/
def isSpaceChar (c : Char) : Bool :=
  c == ' ' || c == '\t' || c == '\n' || c == '\r'

/-- `strings.TrimSpace`. -/
def trimSpace (s : GoStr) : GoStr :=
  ((s.dropWhile isSpaceChar).reverse.dropWhile isSpaceChar).reverse

/-- `strings.TrimLeft(s, space-and-tab)`. -/
def trimLeftSpaceTab (s : GoStr) : GoStr :=
  s.dropWhile fun c => c == ' ' || c == '\t'

/-- Source `Operations.extractIndentation`: the leading run of spaces
and tabs. -/
def extractIndentation (line : GoStr) : GoStr :=
  line.takeWhile fun c => c == ' ' || c == '\t'

/-- Source `Operations.linesMatch`: same number of lines and equal
whitespace-trimmed text, line by line. -/
def linesMatch (contentLines oldLines : List GoStr) : Bool :=
  contentLines.length == oldLines.length &&
    (List.zip contentLines oldLines).all fun p => trimSpace p.1 == trimSpace p.2

/-- The source's first-line indentation adjustment inside
`applyLineBasedEdit`: re-apply the matched line's leading indentation
to the first replacement line (skipped when there is no replacement
line or the match position is past the last content line). -/
def indentAdjust (cur : List GoStr) (newLines : List GoStr) : List GoStr :=
  match newLines, cur with
  | n0 :: ns, c0 :: _ => (extractIndentation c0 ++ trimLeftSpaceTab n0) :: ns
  | ns, _ => ns

/-- The scan of `applyLineBasedEdit` over candidate match positions:
at the first position whose window of lines matches `oldLines` up to
whitespace, splice in the (indentation-adjusted) replacement lines. -/
def lineEditScan (oldLines newLines : List GoStr) : List GoStr → Option (List GoStr)
  | [] =>
    if linesMatch (List.take oldLines.length []) oldLines then
      some (indentAdjust [] newLines ++ List.drop oldLines.length [])
    else none
  | c :: rest =>
    if linesMatch ((c :: rest).take oldLines.length) oldLines then
      some (indentAdjust (c :: rest) newLines ++ (c :: rest).drop oldLines.length)
    else (lineEditScan oldLines newLines rest).map (c :: ·)

/-- Source `Operations.applyLineBasedEdit`: split into lines, scan for
a whitespace-tolerant match, splice, re-join; `none` is the
could-not-find-matching-lines error. -/
def applyLineBasedEdit (content oldText newText : GoStr) : Option GoStr :=
  (lineEditScan (splitNl oldText) (splitNl newText) (splitNl content)).map joinNl

/-- Source struct `EditOperation`. -/
structure EditOperation where
  oldText : GoStr
  newText : GoStr
  deriving DecidableEq, Repr

/-- The sequential edit loop of `Operations.applyEdits`; `i` is the
zero-based loop index, reported one-based in the error. -/
def applyEditsLoop : GoStr → List EditOperation → Nat → Except GoErr GoStr
  | modifiedContent, [], _ => .ok modifiedContent
  | modifiedContent, edit :: rest, i =>
    let oldText := normalizeLineEndings edit.oldText
    let newText := normalizeLineEndings edit.newText
    if strContains modifiedContent oldText then
      applyEditsLoop (replaceFirst modifiedContent oldText newText) rest (i + 1)
    else
      match applyLineBasedEdit modifiedContent oldText newText with
      | some c => applyEditsLoop c rest (i + 1)
      | none => .error (.couldNotApplyEdit (i + 1))

/-- Source `Operations.applyEdits`: normalize line endings, then apply
each edit in order, exact substring match first, whitespace-tolerant
line match second. -/
def applyEdits (content : GoStr) (edits : List EditOperation) : Except GoErr GoStr :=
  applyEditsLoop (normalizeLineEndings content) edits 0

/-- The unified diff text is produced by the external go-diff library,
whose internals are outside this repository; the model keeps only the
data the diff is computed from. -/
def createUnifiedDiff (original modified : GoStr) : GoStr :=
  gs "diff:" ++ original ++ gs "=>" ++ modified

/-- Source `Operations.EditFile`: input checks, read, apply edits,
diff, then persist unless `dryRun`.  Any failure before the write
leaves the filesystem untouched. -/
def EditFile (fs : Fs) (filePath : GoStr) (edits : List EditOperation)
    (dryRun : Bool) : Except GoErr GoStr × Fs :=
  if filePath = [] then (.error .emptyPath, fs)
  else if edits = [] then (.error .noEdits, fs)
  else
    match ReadFile fs filePath with
    | .error e => (.error e, fs)
    | .ok originalContent =>
      match applyEdits originalContent edits with
      | .error e => (.error e, fs)
      | .ok modifiedContent =>
        let diff := createUnifiedDiff originalContent modifiedContent
        if !dryRun then
          match WriteFile fs filePath modifiedContent with
          | (.ok _, fs2) => (.ok diff, fs2)
          | (.error e, fs2) => (.error e, fs2)
        else (.ok diff, fs)

/-- `os.Rename` of a single entry (`none` is the rename error; the
cross-device copy fallback concerns multi-device filesystems, which
this single-map model does not represent and no claim exercises). -/
def renameFs (fs : Fs) (src dst : GoStr) : Option Fs :=
  match fs src with
  | none => none
  | some e => some (updateFs (removeFs fs src) dst e)

/-- Source `Operations.MoveFile`: empty-path checks, then the
destination-existence check, then the rename. -/
def MoveFile (fs : Fs) (sourcePath destPath : GoStr) : Except GoErr Unit × Fs :=
  if sourcePath = [] then (.error .sourceEmpty, fs)
  else if destPath = [] then (.error .destEmpty, fs)
  else
    match statFs fs destPath with
    | some _ => (.error .destinationExists, fs)
    | none =>
      match renameFs fs sourcePath destPath with
      | some fs2 => (.ok (), fs2)
      | none => (.error .moveFailed, fs)

/-! Directory tree (`Operations.DirectoryTree` and `buildTree`) and
search (`Operations.SearchFiles`). -/

/-- Directory listing oracle: `os.ReadDir`, returning each entry's name
and directory flag in the order the OS enumerates them. -/
structure TreeFs where
  readDir : GoStr → Option (List (GoStr × Bool))

/-- One tree node as `buildTree` builds it: files carry no children
field, directories always carry one. -/
inductive TreeEntry where
  | file (name : GoStr)
  | dir (name : GoStr) (children : List TreeEntry)
  deriving Repr

/-- The visited-set key `buildTree` computes: `filepath.EvalSymlinks`
of the directory path (falling back to the cleaned path when
resolution fails), normalized to an absolute path. -/
def realKeyOf (env : ValEnv) (dirPath : GoStr) : GoStr :=
  match env.resolve (cleanSegs dirPath) with
  | some r => joinAbs r
  | none => joinAbs (cleanSegs dirPath)

/-- Source `Operations.buildTree`.  The `fuel` argument is an embedding
artifact that makes the recursion structural; `DirectoryTree` passes
`maxTreeDepth + 2`, so fuel is always `maxTreeDepth + 2 - depth` and
the `fuelExhausted` branch is unreachable (the `depth > maxTreeDepth`
guard fires first).  The shared mutable `visited` map is threaded
through explicitly; a child's insertions survive even when the child
returns an error, matching the shared map.  A subdirectory that fails
boundary validation is skipped; a subtree build error is swallowed
into an empty children list. -/
def buildTree (env : ValEnv) (pv : PathValidator) (m : TreeFs) :
    Nat → GoStr → List GoStr → Nat → Except GoErr (List TreeEntry) × List GoStr
  | fuel, dirPath, visited, depth =>
    if depth > maxTreeDepth then (.error .maxDepthExceeded, visited)
    else
      match fuel with
      | 0 => (.error .fuelExhausted, visited)
      | fuel + 1 =>
        let realPath := realKeyOf env dirPath
        if visited.contains realPath then (.ok [], visited)
        else
          let visited1 := realPath :: visited
          match m.readDir dirPath with
          | none => (.error .readDirFailed, visited1)
          | some entries =>
            match entries.foldl
              (fun (acc : List TreeEntry × List GoStr) entry =>
                match acc with
                | (done, vis) =>
                  if entry.2 then
                    let subPath := dirPath ++ '/' :: entry.1
                    match ValidatePath env pv subPath with
                    | .error _ => (done, vis)
                    | .ok validPath =>
                      match buildTree env pv m fuel validPath vis (depth + 1) with
                      | (.error _, vis2) => (done ++ [.dir entry.1 []], vis2)
                      | (.ok children, vis2) => (done ++ [.dir entry.1 children], vis2)
                  else (done ++ [.file entry.1], vis))
              ([], visited1) with
            | (ts, visited2) => (.ok ts, visited2)

/-- Source `Operations.DirectoryTree`: empty-path check, boundary
validation of the root, then the recursive build from depth 0 with a
fresh visited set.  (The source file carries a merge artifact here — a
duplicated validation block and a two-argument `buildTree` call; the
model follows `buildTree`'s own signature and the package tests, which
start the root call at depth 0.)  JSON serialization of the resulting
tree is omitted. -/
def DirectoryTree (env : ValEnv) (pv : PathValidator) (m : TreeFs)
    (dirPath : GoStr) : Except GoErr (List TreeEntry) :=
  if dirPath = [] then .error .emptyPath
  else
    match ValidatePath env pv dirPath with
    | .error e => .error e
    | .ok validPath =>
      match buildTree env pv m (maxTreeDepth + 2) validPath [] 0 with
      | (.error e, _) => .error e
      | (.ok tree, _) => .ok tree

/-- `strings.ToLower` (character-wise). -/
def toLowerStr (s : GoStr) : GoStr := s.map Char.toLower

/-- Single-segment glob match of the doublestar library: literal
characters, `*` for any run, `?` for any one character.  The fuel
argument only makes the recursion structural; every recursive call
shrinks `p.length + s.length`, so `segMatch` below always supplies
enough. -/
def segMatchF : Nat → GoStr → GoStr → Bool
  | 0, _, _ => false
  | fuel + 1, p, s =>
    match p with
    | [] => s.isEmpty
    | pc :: ps =>
      if pc = '*' then
        segMatchF fuel ps s ||
          (match s with
           | [] => false
           | _ :: s2 => segMatchF fuel (pc :: ps) s2)
      else
        match s with
        | [] => false
        | c :: s2 =>
          if pc = '?' then segMatchF fuel ps s2
          else pc == c && segMatchF fuel ps s2

/-- Single-segment glob match with sufficient fuel. -/
def segMatch (p s : GoStr) : Bool := segMatchF (p.length + s.length + 1) p s

/-- Segment-level match of `doublestar.Match` (v4): a `**` segment
matches any number of path segments, including none.  Fueled like
`segMatchF`. -/
def globSegsMatchF : Nat → List GoStr → List GoStr → Bool
  | 0, _, _ => false
  | fuel + 1, p, segs =>
    match p with
    | [] => segs.isEmpty
    | pseg :: ps =>
      if pseg = gs "**" then
        globSegsMatchF fuel ps segs ||
          (match segs with
           | [] => false
           | _ :: rest => globSegsMatchF fuel (pseg :: ps) rest)
      else
        match segs with
        | [] => false
        | s :: rest => segMatch pseg s && globSegsMatchF fuel ps rest

/-- Segment-level doublestar match with sufficient fuel. -/
def globSegsMatch (p segs : List GoStr) : Bool :=
  globSegsMatchF (p.length + segs.length + 1) p segs

/-- `doublestar.Match(pattern, name)` on separator-split segments. -/
def doublestarMatch (pattern name : GoStr) : Bool :=
  globSegsMatch (splitSlash pattern) (splitSlash name)

/-- Source `Operations.shouldExclude`: a pattern without a wildcard is
wrapped into a match-anywhere directory pattern before matching the
root-relative path. -/
def shouldExclude (relativePath : GoStr) (excludePatterns : List GoStr) : Bool :=
  excludePatterns.any fun pat =>
    let pat2 := if !strContains pat (gs "*") then gs "**/" ++ pat ++ gs "/**" else pat
    doublestarMatch pat2 relativePath

/-- The last separator-delimited component, as `d.Name()` reports for
the walk root. -/
def baseName (p : GoStr) : GoStr :=
  match (splitSlash p).getLast? with
  | some s => s
  | none => p

/-- The `filepath.WalkDir` traversal of `SearchFiles` with the walk
callback inlined: validate the visited path (skipping the subtree of a
directory that fails), prune entries matching an exclude pattern
(subtree-pruned for directories), then collect paths whose lower-cased
name contains the lower-cased pattern, in traversal order.  `fuel`
bounds the recursion depth (an embedding artifact; the walked trees
are finite). -/
def searchVisit (env : ValEnv) (pv : PathValidator) (m : TreeFs)
    (rootPath lowerPattern : GoStr) (excludePatterns : List GoStr) :
    Nat → GoStr → GoStr → Bool → List GoStr → List GoStr
  | fuel, path, name, isDir, results =>
    match ValidatePath env pv path with
    | .error _ => results
    | .ok _ =>
      let excluded :=
        match goRel (cleanSegs rootPath) (cleanSegs path) with
        | some rel => shouldExclude rel excludePatterns
        | none => false
      if excluded then results
      else
        let results2 :=
          if strContains (toLowerStr name) lowerPattern then results ++ [path]
          else results
        if isDir then
          match fuel with
          | 0 => results2
          | fuel + 1 =>
            match m.readDir path with
            | none => results2
            | some entries =>
              entries.foldl
                (fun acc (e : GoStr × Bool) =>
                  searchVisit env pv m rootPath lowerPattern excludePatterns
                    fuel (path ++ '/' :: e.1) e.1 e.2 acc)
                results2
        else results2

/-- Source `Operations.SearchFiles`: input checks, then the validated,
exclusion-pruned, case-insensitive filename-substring walk from the
root. -/
def SearchFiles (env : ValEnv) (pv : PathValidator) (m : TreeFs) (fuel : Nat)
    (rootPath pattern : GoStr) (excludePatterns : List GoStr) :
    Except GoErr (List GoStr) :=
  if rootPath = [] then .error .emptyPath
  else if pattern = [] then .error .emptyPattern
  else
    .ok (searchVisit env pv m rootPath (toLowerStr pattern) excludePatterns
      fuel rootPath (baseName rootPath) true [])

/-! Tool handler layer (`internal/handlers/tools.go`). -/

/-- An MCP tool result: a text payload or an error payload. -/
inductive HandlerResult where
  | text (content : GoStr)
  | errorText (message : GoStr)
  deriving DecidableEq, Repr

/-- Source `ToolHandlers.handleReadMultipleFiles`: each path is
validated, but on validation failure the original, unvalidated path is
appended to the batch, which is then handed to
`Operations.ReadMultipleFiles`. -/
def handleReadMultipleFiles (env : ValEnv) (pv : PathValidator) (fs : Fs)
    (pathsSlice : List GoStr) : HandlerResult :=
  let paths := (pathsSlice.take 100).map fun path =>
    match ValidatePath env pv path with
    | .error _ => path
    | .ok validPath => validPath
  if paths = [] then .errorText (gs "No valid paths provided")
  else
    match ReadMultipleFiles fs paths with
    | .error e => .errorText (gs "Error: " ++ errText e)
    | .ok content => .text content

/-! Concrete scenario models used by the claim theorems. -/

/-- A validator allowing exactly the directory `/b`. -/
def bPv : PathValidator := ⟨[[gs "b"]]⟩

/-- An environment without symlinks: every path resolves to itself. -/
def idEnv : ValEnv := ⟨fun s => some s, none, gs "/cwd"⟩

/-- Cycle scenario (mirrors `TestDirectoryTreeSymlinkLoop`): the
environment where `/b/sub/loop` is a symlink back to `/b`. -/
def cycEnv : ValEnv :=
  ⟨fun s => if s = [gs "b", gs "sub", gs "loop"] then some [gs "b"] else some s,
    none, gs "/cwd"⟩

/-- Cycle scenario listings: `/b` holds `sub`, `sub` holds the `loop`
symlink, and reading through the symlink lists `/b` again. -/
def cycFs : TreeFs :=
  ⟨fun p =>
    if p = gs "/b" then some [(gs "sub", true)]
    else if p = gs "/b/sub" then some [(gs "loop", true)]
    else if p = gs "/b/sub/loop" then some [(gs "sub", true)]
    else none⟩

/-- Deep-nesting scenario: every directory contains one subdirectory
named `d`, so every branch is nested past any depth ceiling. -/
def deepFs : TreeFs := ⟨fun _ => some [(gs "d", true)]⟩

/-- Segments of the depth-`i` directory of the deep scenario. -/
def bSegs (i : Nat) : List Seg := gs "b" :: List.replicate i (gs "d")

/-- Path of the depth-`i` directory of the deep scenario:
`/b/d/d/...`. -/
def dpath (i : Nat) : GoStr := joinAbs (bSegs i)

/-- The tree `DirectoryTree` produces for the deep scenario: `k + 1`
nested `d` directories with the innermost one truncated to empty
children. -/
def deepExpect : Nat → TreeEntry
  | 0 => .dir (gs "d") []
  | k + 1 => .dir (gs "d") [deepExpect k]

/-- Search scenario of the spec: `root/foo.txt`, `root/dir1/foo.txt`
and `root/exclude/foo.txt`. -/
def searchFs : TreeFs :=
  ⟨fun p =>
    if p = gs "/b" then some [(gs "dir1", true), (gs "exclude", true), (gs "foo.txt", false)]
    else if p = gs "/b/dir1" then some [(gs "foo.txt", false)]
    else if p = gs "/b/exclude" then some [(gs "foo.txt", false)]
    else none⟩

/-- A validator allowing exactly `/sandbox`. -/
def sandboxPv : PathValidator := ⟨[[gs "sandbox"]]⟩

/-- A file outside every allowed directory. -/
def secretPath : GoStr := gs "/secret/key.txt"

/-- A filesystem holding only the out-of-sandbox file. -/
def secretFs : Fs :=
  fun p => if p = secretPath then some (.file (gs "TOPSECRET")) else none

/-- The empty filesystem. -/
def emptyFs : Fs := fun _ => none

/-- Target path of the oversized-write scenario. -/
def bigPath : GoStr := gs "/sandbox/too_big.txt"

/-- Content one byte past the read ceiling. -/
def bigContent : GoStr := List.replicate (maxReadSize + 1) 'd'

/-- Destination of the move-conflict scenario. -/
def dstPath : GoStr := gs "/sandbox/dst.txt"

/-- A filesystem where the move destination already exists. -/
def moveFs : Fs :=
  fun p => if p = dstPath then some (.file (gs "existing")) else none

/-- File of the edit scenario. -/
def editPath : GoStr := gs "/sandbox/a.txt"

/-- A filesystem holding the edit scenario's file. -/
def editFs : Fs :=
  fun p => if p = editPath then some (.file (gs "hello world")) else none

theorem dropCommonPrefixSegs_append (d r : List Seg) :
    dropCommonPrefixSegs d (d ++ r) = ([], r) := by
  induction d with
  | nil => cases r <;> simp [dropCommonPrefixSegs]
  | cons x xs ih => simp [dropCommonPrefixSegs, ih]

theorem eq_append_of_dropCommonPrefixSegs {d p r : List Seg}
    (h : dropCommonPrefixSegs d p = ([], r)) : p = d ++ r := by
  induction d generalizing p with
  | nil =>
    cases p <;> simpa [dropCommonPrefixSegs] using h
  | cons x xs ih =>
    cases p with
    | nil => simp [dropCommonPrefixSegs] at h
    | cons y ys =>
      by_cases hxy : x = y
      · subst hxy
        simp only [dropCommonPrefixSegs, if_pos rfl] at h
        simpa using ih h
      · simp [dropCommonPrefixSegs, hxy] at h

theorem dotdot_isPrefixOf_joinPath (s : Seg) (t : List Seg) :
    (gs "..").isPrefixOf (joinPath (s :: t)) = (gs "..").isPrefixOf s := by
  cases t with
  | nil => rfl
  | cons u us =>
    show (gs "..").isPrefixOf (s ++ '/' :: joinPath (u :: us)) = _
    match s with
    | [] => simp [gs, List.isPrefixOf]
    | [c] => simp [gs, List.isPrefixOf]
    | c₁ :: c₂ :: cs => simp [gs, List.isPrefixOf]

/-- Characterization of the source containment test: a cleaned absolute
path passes `isPathUnderDirectory` against a cleaned absolute directory
exactly when it equals the directory, or extends it by segments whose
first one does not itself begin with the two characters `..`. -/
theorem isPathUnderDirectory_iff (p d : List Seg) :
    isPathUnderDirectory p d = true ↔
      d = p ∨ ∃ s r, p = d ++ s :: r ∧ (gs "..").isPrefixOf s = false := by
  unfold isPathUnderDirectory goRel
  by_cases hdp : d = p
  · subst hdp
    simp [gs, List.isPrefixOf]
  · simp only [if_neg hdp]
    have hnotext : (∃ s r, p = d ++ s :: r ∧ (gs "..").isPrefixOf s = false) →
        ∀ b bs t, dropCommonPrefixSegs d p ≠ (b :: bs, t) := by
      rintro ⟨s, r, hp, -⟩ b bs t hcontra
      rw [hp, dropCommonPrefixSegs_append] at hcontra
      exact (List.cons_ne_nil _ _) (congrArg Prod.fst hcontra).symm
    rcases hsplit : dropCommonPrefixSegs d p with ⟨dl, t⟩
    cases dl with
    | cons b bs =>
      constructor
      · intro htrue
        dsimp only at htrue
        by_cases hb : b = gs ".."
        · rw [if_pos hb] at htrue
          exact absurd htrue (by simp)
        · exfalso
          rw [if_neg hb] at htrue
          dsimp only at htrue
          have hrep : List.replicate (b :: bs).length (gs "..") ++ t
              = gs ".." :: (List.replicate bs.length (gs "..") ++ t) := by
            simp [List.replicate_succ]
          rw [hrep, dotdot_isPrefixOf_joinPath] at htrue
          simp [gs, List.isPrefixOf] at htrue
      · intro hr
        rcases hr with hr | hr
        · exact absurd hr hdp
        · exact absurd hsplit (hnotext hr b bs t)
    | nil =>
      have hp : p = d ++ t := eq_append_of_dropCommonPrefixSegs hsplit
      cases t with
      | nil => exact absurd (by simpa using hp.symm) hdp
      | cons s r =>
        dsimp only
        rw [dotdot_isPrefixOf_joinPath]
        constructor
        · intro htrue
          refine Or.inr ⟨s, r, hp, ?_⟩
          simpa using htrue
        · rintro (hr | ⟨s', r', hp', hpre⟩)
          · exact absurd hr hdp
          · have hsr : s :: r = s' :: r' := by
              have := hp ▸ hp'
              have h2 := congrArg (List.drop d.length) this
              simpa [List.drop_left] using h2
            cases hsr
            simpa using hpre

theorem cleanAbsAux_of_wf {l : List Seg} (hl : ∀ x ∈ l, WfSeg x)
    (acc : List Seg) : cleanAbsAux acc l = acc.reverse ++ l := by
  induction l generalizing acc with
  | nil => simp [cleanAbsAux]
  | cons x xs ih =>
    have hx := hl x (by simp)
    have hxs : ∀ y ∈ xs, WfSeg y := fun y hy => hl y (by simp [hy])
    unfold cleanAbsAux
    rw [if_neg (by rintro (h | h) <;> [exact hx.1 h; exact hx.2.1 h]),
      if_neg hx.2.2.1, ih hxs]
    simp

theorem cleanAbsSegs_of_wf {l : List Seg} (hl : ∀ x ∈ l, WfSeg x) :
    cleanAbsSegs l = l := by
  simpa using cleanAbsAux_of_wf hl []

theorem splitSlash_noSep {s : Seg} (hs : '/' ∉ s) : splitSlash s = [s] := by
  induction s with
  | nil => rfl
  | cons c cs ih =>
    have hc : c ≠ '/' := fun h => hs (by simp [h])
    have hcs : '/' ∉ cs := fun h => hs (by simp [h])
    rw [splitSlash, if_neg hc, ih hcs]

theorem splitSlash_append_sep {s : Seg} (r : GoStr) (hs : '/' ∉ s) :
    splitSlash (s ++ '/' :: r) = s :: splitSlash r := by
  induction s with
  | nil => simp [splitSlash]
  | cons c cs ih =>
    have hc : c ≠ '/' := fun h => hs (by simp [h])
    have hcs : '/' ∉ cs := fun h => hs (by simp [h])
    show splitSlash (c :: (cs ++ '/' :: r)) = (c :: cs) :: splitSlash r
    rw [splitSlash, if_neg hc, ih hcs]

theorem splitSlash_joinPath {segs : List Seg}
    (h : ∀ x ∈ segs, '/' ∉ x) (hne : segs ≠ []) :
    splitSlash (joinPath segs) = segs := by
  induction segs with
  | nil => exact absurd rfl hne
  | cons s rest ih =>
    cases rest with
    | nil => exact splitSlash_noSep (h s (by simp))
    | cons u us =>
      show splitSlash (s ++ '/' :: joinPath (u :: us)) = _
      rw [splitSlash_append_sep _ (h s (by simp)),
        ih (fun x hx => h x (by simp [hx])) (by simp)]

theorem cleanSegs_joinAbs {segs : List Seg} (h : ∀ x ∈ segs, WfSeg x) :
    cleanSegs (joinAbs segs) = segs := by
  unfold cleanSegs joinAbs
  show cleanAbsSegs (splitSlash ('/' :: joinPath segs)) = segs
  have hstep : splitSlash ('/' :: joinPath segs) = [] :: splitSlash (joinPath segs) := rfl
  rw [hstep]
  cases hsegs : segs with
  | nil => rfl
  | cons s rest =>
    rw [← hsegs, splitSlash_joinPath (fun x hx => (h x hx).2.2.2) (by simp [hsegs])]
    show cleanAbsAux [] ([] :: segs) = segs
    unfold cleanAbsAux
    rw [if_pos (Or.inl rfl)]
    simpa using cleanAbsAux_of_wf h []

theorem expandHome_abs {p : GoStr} (hp : isAbsStr p = true) (home : Option GoStr) :
    ExpandHomePath home p = p := by
  cases p with
  | nil => simp [isAbsStr] at hp
  | cons c rest =>
    have hc : c = '/' := by simpa [isAbsStr] using hp
    subst hc
    unfold ExpandHomePath
    rw [if_neg, if_neg]
    · intro h
      have h2 : (('/' :: rest).take 2).head? = (gs "~/").head? := congrArg _ h
      simp [gs] at h2
    · intro h
      have h2 : (('/' :: rest) : GoStr).head? = (gs "~").head? := congrArg _ h
      simp [gs] at h2

theorem isPathUnderDirectory_extend_dotdot (A : List Seg) (s : Seg)
    (hpre : (gs "..").isPrefixOf s = true) :
    isPathUnderDirectory (A ++ [s]) A = false := by
  cases h : isPathUnderDirectory (A ++ [s]) A with
  | false => rfl
  | true =>
    exfalso
    rw [isPathUnderDirectory_iff] at h
    rcases h with h | ⟨s', r', heq, hf⟩
    · have := congrArg List.length h
      simp at this
    · have h2 : [s] = s' :: r' := by
        have h3 := congrArg (List.drop A.length) heq
        simpa [List.drop_left] using h3
      cases h2
      rw [hpre] at hf
      exact Bool.true_eq_false.mp hf

theorem validatePath_rejects_dotdot_child
    (env : ValEnv) (A : List Seg) (s : Seg)
    (hA : ∀ x ∈ A, WfSeg x)
    (hpre : (gs "..").isPrefixOf s = true)
    (hs2 : s ≠ gs "..") (hslash : '/' ∉ s) :
    ValidatePath env ⟨[A]⟩ (joinAbs (A ++ [s])) = .error .outsideAllowed := by
  have hsne : s ≠ [] := by rintro rfl; simp [gs, List.isPrefixOf] at hpre
  have hsdot : s ≠ gs "." := by rintro rfl; simp [gs, List.isPrefixOf] at hpre
  have hwf : ∀ x ∈ A ++ [s], WfSeg x := by
    intro x hx
    rcases List.mem_append.mp hx with h | h
    · exact hA x h
    · simp only [List.mem_singleton] at h
      subst h
      exact ⟨hsne, hsdot, hs2, hslash⟩
  have hclean : cleanSegs (joinAbs (A ++ [s])) = A ++ [s] := cleanSegs_joinAbs hwf
  have hclean2 : cleanAbsSegs (A ++ [s]) = A ++ [s] := cleanAbsSegs_of_wf hwf
  have hallowed : isPathAllowed ⟨[A]⟩ (A ++ [s]) = false := by
    simp [isPathAllowed, hclean2, isPathUnderDirectory_extend_dotdot A s hpre]
  have habs : isAbsStr (joinAbs (A ++ [s])) = true := rfl
  unfold ValidatePath
  rw [if_neg (show ¬ joinAbs (A ++ [s]) = [] by simp [joinAbs])]
  simp only [expandHome_abs habs env.home, habs, if_true, hclean, hallowed]
  simp

theorem applyEditsLoop_ok_index (l : List EditOperation) :
    ∀ (c : GoStr) (i j : Nat) (x : GoStr),
      applyEditsLoop c l i = .ok x → applyEditsLoop c l j = .ok x := by
  induction l with
  | nil =>
    intro c i j x h
    simpa [applyEditsLoop] using h
  | cons e rest ih =>
    intro c i j x h
    simp only [applyEditsLoop] at h ⊢
    by_cases hc : strContains c (normalizeLineEndings e.oldText) = true
    · rw [if_pos hc] at h ⊢
      exact ih _ _ _ _ h
    · rw [if_neg hc] at h ⊢
      cases happ : applyLineBasedEdit c (normalizeLineEndings e.oldText)
          (normalizeLineEndings e.newText) with
      | some c1 =>
        rw [happ] at h
        dsimp only
        exact ih _ _ _ _ h
      | none =>
        rw [happ] at h
        exact absurd h (by simp)

theorem applyEditsLoop_error_first (l : List EditOperation) :
    ∀ (c : GoStr) (i : Nat) (err : GoErr),
      applyEditsLoop c l i = .error err →
        ∃ k e c2, l.get? k = some e ∧
          err = .couldNotApplyEdit (i + k + 1) ∧
          applyEditsLoop c (l.take k) 0 = .ok c2 ∧
          strContains c2 (normalizeLineEndings e.oldText) = false ∧
          applyLineBasedEdit c2 (normalizeLineEndings e.oldText)
            (normalizeLineEndings e.newText) = none := by
  induction l with
  | nil =>
    intro c i err h
    simp [applyEditsLoop] at h
  | cons ed rest ih =>
    intro c i err h
    simp only [applyEditsLoop] at h
    by_cases hc : strContains c (normalizeLineEndings ed.oldText) = true
    · rw [if_pos hc] at h
      obtain ⟨k, e, c2, hget, herr, hpre, hcon, happ2⟩ := ih _ _ _ h
      refine ⟨k + 1, e, c2, by simpa using hget, ?_, ?_, hcon, happ2⟩
      · rw [herr]
        congr 1
        omega
      · rw [List.take_succ_cons]
        simp only [applyEditsLoop]
        rw [if_pos hc]
        exact applyEditsLoop_ok_index _ _ _ _ _ hpre
    · rw [if_neg hc] at h
      cases happ : applyLineBasedEdit c (normalizeLineEndings ed.oldText)
          (normalizeLineEndings ed.newText) with
      | some c1 =>
        rw [happ] at h
        dsimp only at h
        obtain ⟨k, e, c2, hget, herr, hpre, hcon, happ2⟩ := ih _ _ _ h
        refine ⟨k + 1, e, c2, by simpa using hget, ?_, ?_, hcon, happ2⟩
        · rw [herr]
          congr 1
          omega
        · rw [List.take_succ_cons]
          simp only [applyEditsLoop]
          rw [if_neg hc, happ]
          exact applyEditsLoop_ok_index _ _ _ _ _ hpre
      | none =>
        rw [happ] at h
        dsimp only at h
        refine ⟨0, ed, c, rfl, ?_, by simp [applyEditsLoop],
          Bool.not_eq_true _ ▸ hc, happ⟩
        have h2 : GoErr.couldNotApplyEdit (i + 1) = err := by
          simpa using h
        rw [← h2]

/-- C1: the spec says every engine entry point boundary-validates each
caller-supplied path before any filesystem I/O, and that no component
bypasses the validator.  The code contradicts this and its own tool
documentation (read_multiple_files promises to work only within
allowed directories, and its loop is commented as validating each
path): `handleReadMultipleFiles` appends the original, unvalidated
path when validation fails, and `Operations.ReadFile` performs `os.Stat`
and `os.ReadFile` with no validation of its own, so the file outside
every allowed directory is read and its content returned. -/
theorem claim_C1_bug :
    ValidatePath idEnv sandboxPv secretPath = .error .outsideAllowed ∧
      secretFs secretPath = some (.file (gs "TOPSECRET")) ∧
      ReadFile secretFs secretPath = .ok (gs "TOPSECRET") ∧
      handleReadMultipleFiles idEnv sandboxPv secretFs [secretPath]
        = .text (secretPath ++ gs ":\n" ++ gs "TOPSECRET" ++ gs "\n") :=
  ⟨by rfl, by rfl, by rfl, by rfl⟩

/-- C2: the spec says a WriteFile call with content larger than the
fixed ceiling is rejected before any byte is written.  The code has no
write-size check at all (`maxWriteSize` exists only in the package's
tests, which expect the oversized write to fail and the file not to be
created): writing one byte more than the 1 MiB read ceiling to a fresh
file succeeds and creates the file with the full content. -/
theorem claim_C2_bug :
    (WriteFile emptyFs bigPath bigContent).1 = .ok () ∧
      (WriteFile emptyFs bigPath bigContent).2 bigPath = some (.file bigContent) ∧
      maxReadSize < bigContent.length := by
  refine ⟨rfl, rfl, ?_⟩
  simp [bigContent]

/-- C3 counterexample: `/allowed/..cache` is a path-separator-bounded
descendant of the allowed directory `/allowed` and is already in
cleaned absolute form, yet the containment check rejects it, so the
check does not accept exactly the separator-bounded descendants. -/
theorem claim_C3_counterexample :
    SpecSepBoundedDescendant [gs "allowed"] [gs "allowed", gs "..cache"] ∧
      cleanAbsSegs [gs "allowed", gs "..cache"] = [gs "allowed", gs "..cache"] ∧
      isPathAllowed ⟨[[gs "allowed"]]⟩ [gs "allowed", gs "..cache"] = false :=
  ⟨⟨[gs "..cache"], rfl⟩, by decide, by decide⟩

/-- C3 (amended): the containment check accepts a candidate exactly
when its cleaned absolute form equals an entry of the allowed set, or
extends an entry by further segments the first of which does not itself
begin with the two characters `..`; in particular the sibling
`/allowed-evil` is still rejected against `/allowed` (no bare
string-prefix matching), but so is the genuine descendant
`/allowed/..cache`. -/
theorem claim_C3_amended :
    (∀ (pv : PathValidator) (p : List Seg),
        isPathAllowed pv p = true ↔
          ∃ d ∈ pv.allowedDirectories,
            d = cleanAbsSegs p ∨
              ∃ s r, cleanAbsSegs p = d ++ s :: r ∧
                (gs "..").isPrefixOf s = false) ∧
      isPathAllowed ⟨[[gs "allowed"]]⟩ [gs "allowed-evil"] = false := by
  constructor
  · intro pv p
    unfold isPathAllowed
    rw [List.any_eq_true]
    constructor
    · rintro ⟨d, hd, hu⟩
      rw [isPathUnderDirectory_iff] at hu
      exact ⟨d, hd, hu⟩
    · rintro ⟨d, hd, h⟩
      exact ⟨d, hd, (isPathUnderDirectory_iff _ _).mpr h⟩
  · decide

/-- C7 counterexample: a MoveFile call with an empty source path and an
existing destination returns the empty-source-path error, not the
conflict error the claim promises for every call with an existing
destination (both files are indeed left unchanged). -/
theorem claim_C7_counterexample :
    statFs moveFs dstPath = some ⟨8, false⟩ ∧
      MoveFile moveFs [] dstPath = (.error .sourceEmpty, moveFs) :=
  ⟨by decide, by rfl⟩

/-- C7 (amended): for every MoveFile call with a nonempty source path
whose destination already exists, the call returns the conflict error
and the filesystem is returned unchanged — the existence check runs
before the rename, so nothing is mutated. -/
theorem claim_C7_amended (fs : Fs) (sourcePath destPath : GoStr)
    (info : StatInfo) (hsrc : sourcePath ≠ [])
    (hdst : statFs fs destPath = some info) :
    MoveFile fs sourcePath destPath = (.error .destinationExists, fs) := by
  have hdne : destPath ≠ [] := by
    intro h
    rw [h] at hdst
    simp [statFs] at hdst
  unfold MoveFile
  rw [if_neg hsrc, if_neg hdne, hdst]

/-- C7 witness: the amended theorem applied to the concrete
move-conflict scenario. -/
theorem claim_C7_witness :
    MoveFile moveFs (gs "/sandbox/src.txt") dstPath
      = (.error .destinationExists, moveFs) :=
  claim_C7_amended moveFs (gs "/sandbox/src.txt") dstPath ⟨8, false⟩
    (by decide) (by decide)

/-- C8: ReadFile on a file whose size equals the 1 MiB ceiling returns
the full content, and on a file one byte larger returns the size-limit
error, whose error value carries no content. -/
theorem claim_C8 (fs : Fs) (filePath content : GoStr)
    (hfs : fs filePath = some (.file content)) (hne : filePath ≠ []) :
    (content.length = maxReadSize → ReadFile fs filePath = .ok content) ∧
      (content.length = maxReadSize + 1 →
        ReadFile fs filePath = .error .fileTooLarge) := by
  have hstat : statFs fs filePath = some ⟨content.length, false⟩ := by
    simp [statFs, hne, hfs]
  constructor
  · intro hlen
    unfold ReadFile
    rw [if_neg hne, hstat]
    dsimp only
    rw [if_neg (by omega : ¬ content.length > maxReadSize)]
    simp [readFs, hfs]
  · intro hlen
    unfold ReadFile
    rw [if_neg hne, hstat]
    dsimp only
    rw [if_pos (by omega : content.length > maxReadSize)]

/-- C8 witness: the boundary sizes evaluated on concrete one-file
filesystems. -/
theorem claim_C8_witness :
    ReadFile
        (fun p => if p = editPath
          then some (.file (List.replicate maxReadSize 'a')) else none)
        editPath
      = .ok (List.replicate maxReadSize 'a') ∧
      ReadFile
          (fun p => if p = editPath
            then some (.file (List.replicate (maxReadSize + 1) 'a')) else none)
          editPath
        = .error .fileTooLarge := by
  constructor
  · exact (claim_C8 _ editPath (List.replicate maxReadSize 'a')
      (by simp) (by decide)).1 (by simp)
  · exact (claim_C8 _ editPath (List.replicate (maxReadSize + 1) 'a')
      (by simp) (by decide)).2 (by simp)

/-- C9: the search scenario of the spec — pattern `foo`, exclusion
`exclude` — returns exactly `root/foo.txt` and `root/dir1/foo.txt`, in
traversal order, and omits `root/exclude/foo.txt`: the bare exclude
name is wrapped into a match-anywhere directory glob, the matching
directory is subtree-pruned, and the remaining entries match by
case-insensitive filename substring. -/
theorem claim_C9 :
    SearchFiles idEnv bPv searchFs 10 (gs "/b") (gs "foo") [gs "exclude"]
        = .ok [gs "/b/dir1/foo.txt", gs "/b/foo.txt"] ∧
      ([gs "/b/dir1/foo.txt", gs "/b/foo.txt"] : List GoStr).contains
          (gs "/b/exclude/foo.txt")
        = false :=
  ⟨by rfl, by decide⟩

/-- C10: for an allowed directory `A` and a child whose final segment
begins with two literal dots but is not the dot-dot segment itself
(such as `A/..cache`), ValidatePath rejects the path with the
outside-allowed-directories error — for every environment, so in
particular whether or not the path exists — even though the path is a
genuine separator-bounded descendant of `A`, because the containment
check rejects any relative path with the string prefix `..`. -/
theorem claim_C10 (env : ValEnv) (A : List Seg) (s : Seg)
    (hA : ∀ x ∈ A, WfSeg x) (hpre : (gs "..").isPrefixOf s = true)
    (hs2 : s ≠ gs "..") (hslash : '/' ∉ s) :
    SpecSepBoundedDescendant A (A ++ [s]) ∧
      ValidatePath env ⟨[A]⟩ (joinAbs (A ++ [s])) = .error .outsideAllowed :=
  ⟨⟨[s], rfl⟩, validatePath_rejects_dotdot_child env A s hA hpre hs2 hslash⟩

/-- C10 witness: the rejection evaluated at `/allowed/..cache` against
the allowed directory `/allowed`. -/
theorem claim_C10_witness :
    SpecSepBoundedDescendant [gs "allowed"] ([gs "allowed"] ++ [gs "..cache"]) ∧
      ValidatePath idEnv ⟨[[gs "allowed"]]⟩ (joinAbs ([gs "allowed"] ++ [gs "..cache"]))
        = .error .outsideAllowed :=
  claim_C10 idEnv [gs "allowed"] (gs "..cache")
    (by decide) (by decide) (by decide) (by decide)

theorem wf_bSegs (i : Nat) : ∀ x ∈ bSegs i, WfSeg x := by
  intro x hx
  simp only [bSegs, List.mem_cons] at hx
  rcases hx with h | h
  · subst h; decide
  · rw [List.eq_of_mem_replicate h]; decide

theorem cleanSegs_dpath (i : Nat) : cleanSegs (dpath i) = bSegs i :=
  cleanSegs_joinAbs (wf_bSegs i)

theorem cleanAbs_bSegs (i : Nat) : cleanAbsSegs (bSegs i) = bSegs i :=
  cleanAbsSegs_of_wf (wf_bSegs i)

theorem under_bSegs (i : Nat) : isPathUnderDirectory (bSegs i) [gs "b"] = true := by
  rw [isPathUnderDirectory_iff]
  cases i with
  | zero => exact Or.inl rfl
  | succ n =>
    refine Or.inr ⟨gs "d", List.replicate n (gs "d"), ?_, by decide⟩
    simp [bSegs, List.replicate_succ]

theorem allowed_bSegs (i : Nat) : isPathAllowed bPv (bSegs i) = true := by
  simp [isPathAllowed, bPv, cleanAbs_bSegs, under_bSegs]

theorem valid_dpath (i : Nat) : ValidatePath idEnv bPv (dpath i) = .ok (dpath i) := by
  have hexp : ExpandHomePath none (joinAbs (bSegs i)) = joinAbs (bSegs i) :=
    expandHome_abs (p := joinAbs (bSegs i)) rfl none
  have hcs : cleanSegs (joinAbs (bSegs i)) = bSegs i := cleanSegs_joinAbs (wf_bSegs i)
  show ValidatePath idEnv bPv (joinAbs (bSegs i)) = .ok (joinAbs (bSegs i))
  unfold ValidatePath validateRealPath
  rw [if_neg (show ¬ joinAbs (bSegs i) = [] by simp [joinAbs])]
  simp [idEnv, hexp, hcs, allowed_bSegs,
    show isAbsStr (joinAbs (bSegs i)) = true from rfl]

theorem realKey_dpath (i : Nat) : realKeyOf idEnv (dpath i) = dpath i := by
  have hcs : cleanSegs (joinAbs (bSegs i)) = bSegs i := cleanSegs_joinAbs (wf_bSegs i)
  show realKeyOf idEnv (joinAbs (bSegs i)) = joinAbs (bSegs i)
  simp [realKeyOf, idEnv, hcs]

theorem joinPath_cons_cons (s u : Seg) (rest : List Seg) :
    joinPath (s :: u :: rest) = s ++ '/' :: joinPath (u :: rest) := rfl

theorem joinPath_append_single (x : Seg) :
    ∀ (segs : List Seg), segs ≠ [] →
      joinPath (segs ++ [x]) = joinPath segs ++ '/' :: x := by
  intro segs
  induction segs with
  | nil => exact fun h => absurd rfl h
  | cons s rest ih =>
    intro _
    cases rest with
    | nil => rfl
    | cons u us =>
      show joinPath (s :: ((u :: us) ++ [x])) = _
      rw [show (u :: us) ++ [x] = u :: (us ++ [x]) from rfl,
        joinPath_cons_cons, joinPath_cons_cons]
      rw [show u :: (us ++ [x]) = (u :: us) ++ [x] from rfl, ih (by simp)]
      simp

theorem dpath_succ (i : Nat) : dpath (i + 1) = dpath i ++ '/' :: gs "d" := by
  unfold dpath joinAbs bSegs
  rw [List.replicate_succ',
    show gs "b" :: (List.replicate i (gs "d") ++ [gs "d"])
      = (gs "b" :: List.replicate i (gs "d")) ++ [gs "d"] from rfl,
    joinPath_append_single _ _ (by simp)]
  simp

theorem dpath_len (i : Nat) : (dpath i).length = 2 + 2 * i := by
  induction i with
  | zero => rfl
  | succ n ih =>
    rw [dpath_succ]
    simp only [List.length_append, List.length_cons, ih, gs]
    simp
    omega

theorem dpath_ne {i j : Nat} (h : i ≠ j) : dpath i ≠ dpath j := by
  intro heq
  apply h
  have hlen := congrArg List.length heq
  rw [dpath_len, dpath_len] at hlen
  omega

theorem deep_chain : ∀ (n i : Nat) (visited : List GoStr),
    i + n = maxTreeDepth →
    (∀ j, i ≤ j → dpath j ∉ visited) →
    ∃ vis2, buildTree idEnv bPv deepFs (n + 2) (dpath i) visited i
      = (.ok [deepExpect n], vis2) := by
  intro n
  induction n with
  | zero =>
    intro i visited hik hvis
    refine ⟨dpath i :: visited, ?_⟩
    rw [buildTree]
    rw [if_neg (by omega : ¬ i > maxTreeDepth)]
    dsimp only
    rw [realKey_dpath]
    rw [if_neg (fun hcon => hvis i le_rfl (List.elem_iff.mp hcon))]
    rw [show deepFs.readDir (dpath i) = some [(gs "d", true)] from rfl]
    simp only [List.foldl_cons, List.foldl_nil]
    rw [← dpath_succ i, valid_dpath (i + 1)]
    dsimp only
    rw [buildTree]
    rw [if_pos (by omega : i + 1 > maxTreeDepth)]
    dsimp only [deepExpect]
    rfl
  | succ n ih =>
    intro i visited hik hvis
    have hstep : ∀ j, i + 1 ≤ j → dpath j ∉ dpath i :: visited := by
      intro j hj
      simp only [List.mem_cons, not_or]
      exact ⟨dpath_ne (by omega), hvis j (by omega)⟩
    obtain ⟨vis2, hrec⟩ := ih (i + 1) (dpath i :: visited) (by omega) hstep
    refine ⟨vis2, ?_⟩
    rw [buildTree]
    rw [if_neg (by omega : ¬ i > maxTreeDepth)]
    dsimp only
    rw [realKey_dpath]
    rw [if_neg (fun hcon => hvis i le_rfl (List.elem_iff.mp hcon))]
    rw [show deepFs.readDir (dpath i) = some [(gs "d", true)] from rfl]
    simp only [List.foldl_cons, List.foldl_nil]
    rw [← dpath_succ i, valid_dpath (i + 1)]
    dsimp only
    rw [hrec]
    dsimp only [deepExpect]
    rfl

theorem deepTree_result :
    DirectoryTree idEnv bPv deepFs (gs "/b") = .ok [deepExpect maxTreeDepth] := by
  obtain ⟨vis2, heq⟩ := deep_chain maxTreeDepth 0 [] (by omega) (by simp)
  unfold DirectoryTree
  rw [if_neg (by decide : ¬ gs "/b" = [])]
  rw [show gs "/b" = dpath 0 from rfl, valid_dpath 0]
  dsimp only
  rw [show maxTreeDepth + 2 = maxTreeDepth + 2 from rfl, heq]

/-- C4 counterexample: on the concrete directory nested past the depth
ceiling (every directory containing a further `d` subdirectory), the
root DirectoryTree call succeeds — the depth-exceeded error raised by
the over-deep subtree call is swallowed by its parent into an empty
children list — so exceeding the ceiling is not a hard error for the
root call. -/
theorem claim_C4_counterexample :
    DirectoryTree idEnv bPv deepFs (gs "/b") = .ok [deepExpect maxTreeDepth] :=
  deepTree_result

/-- C4 (amended): exceeding the depth ceiling is a hard error only for
the over-deep recursive call itself — `buildTree` past the ceiling
returns the depth-exceeded error with the visited set unchanged — and
the parent call swallows that error into an empty children list, so
the same over-deep input always produces the same behavior: the root
call deterministically succeeds with the tree silently truncated at
the ceiling, never an error at the root. -/
theorem claim_C4_amended :
    (∀ (env : ValEnv) (pv : PathValidator) (m : TreeFs) (fuel : Nat)
        (dirPath : GoStr) (visited : List GoStr) (depth : Nat),
      depth > maxTreeDepth →
        buildTree env pv m fuel dirPath visited depth
          = (.error .maxDepthExceeded, visited)) ∧
      DirectoryTree idEnv bPv deepFs (gs "/b") = .ok [deepExpect maxTreeDepth] := by
  refine ⟨fun env pv m fuel dirPath visited depth hd => ?_, deepTree_result⟩
  rw [buildTree.eq_def]
  dsimp only
  rw [if_pos hd]

/-- C4 witness: the depth guard evaluated at a concrete over-deep
call. -/
theorem claim_C4_witness :
    buildTree idEnv bPv deepFs 1 (dpath 21) [] 21
      = (.error .maxDepthExceeded, []) :=
  claim_C4_amended.1 idEnv bPv deepFs 1 (dpath 21) [] 21 (by decide)

/-- C5: DirectoryTree breaks symlink cycles instead of recursing
forever: (1) on the concrete scenario of
`TestDirectoryTreeSymlinkLoop` — `/b/sub/loop` a symlink back to `/b` —
the build returns without error and the looping directory contributes
an empty children list; (2) in general, a directory whose resolved
real path was already visited contributes an empty entry list without
recursing; (3) the recursion always terminates: with the fuel
`DirectoryTree` supplies (any fuel covering the depth ceiling), the
fuel-exhaustion artifact of the embedding is unreachable, because the
depth guard fires first. -/
theorem claim_C5 :
    DirectoryTree cycEnv bPv cycFs (gs "/b")
        = .ok [.dir (gs "sub") [.dir (gs "loop") []]] ∧
      (∀ (env : ValEnv) (pv : PathValidator) (m : TreeFs) (fuel : Nat)
          (dirPath : GoStr) (visited : List GoStr) (depth : Nat),
        depth ≤ maxTreeDepth → realKeyOf env dirPath ∈ visited →
          buildTree env pv m (fuel + 1) dirPath visited depth = (.ok [], visited)) ∧
      (∀ (env : ValEnv) (pv : PathValidator) (m : TreeFs) (fuel : Nat)
          (dirPath : GoStr) (visited : List GoStr) (depth : Nat),
        maxTreeDepth + 1 - depth ≤ fuel →
          (buildTree env pv m fuel dirPath visited depth).1
            ≠ .error .fuelExhausted) := by
  refine ⟨by rfl, ?_, ?_⟩
  · intro env pv m fuel dirPath visited depth hdepth hmem
    rw [buildTree]
    rw [if_neg (by omega : ¬ depth > maxTreeDepth)]
    dsimp only
    rw [if_pos (List.elem_iff.mpr hmem)]
  · intro env pv m fuel dirPath visited depth hfuel
    match fuel, hfuel with
    | 0, hfuel =>
      rw [buildTree]
      rw [if_pos (by omega : depth > maxTreeDepth)]
      simp
    | fuel + 1, _ =>
      rw [buildTree]
      by_cases hd : depth > maxTreeDepth
      · rw [if_pos hd]
        simp
      · rw [if_neg hd]
        dsimp only
        split
        · simp
        · split
          · simp
          · simp

/-- C6: when the sequential edit application fails — that is, some edit
matches neither by exact substring nor by whitespace-trimmed line run —
EditFile returns the error unchanged-filesystem pair, and the error
identifies (one-based) the first failing edit: the edits before it all
applied, and the failing one passed neither the substring test nor the
line-based match. -/
theorem claim_C6 (fs : Fs) (filePath : GoStr) (edits : List EditOperation)
    (dryRun : Bool) (originalContent : GoStr) (err : GoErr)
    (hread : ReadFile fs filePath = .ok originalContent)
    (happly : applyEdits originalContent edits = .error err) :
    EditFile fs filePath edits dryRun = (.error err, fs) ∧
      ∃ k e c2, edits.get? k = some e ∧
        err = .couldNotApplyEdit (k + 1) ∧
        applyEditsLoop (normalizeLineEndings originalContent) (edits.take k) 0
          = .ok c2 ∧
        strContains c2 (normalizeLineEndings e.oldText) = false ∧
        applyLineBasedEdit c2 (normalizeLineEndings e.oldText)
          (normalizeLineEndings e.newText) = none := by
  have hpath : filePath ≠ [] := by
    intro h
    rw [h] at hread
    simp [ReadFile] at hread
  have hedits : edits ≠ [] := by
    intro h
    rw [h] at happly
    simp [applyEdits, applyEditsLoop] at happly
  constructor
  · unfold EditFile
    rw [if_neg hpath, if_neg hedits, hread]
    dsimp only
    rw [happly]
  · obtain ⟨k, e, c2, h1, h2, h3, h4, h5⟩ :=
      applyEditsLoop_error_first edits _ 0 err happly
    exact ⟨k, e, c2, h1, by simpa using h2, h3, h4, h5⟩

/-- C6 witness: a two-edit call whose second edit matches nothing fails
with the index-2 error and leaves the filesystem unchanged. -/
theorem claim_C6_witness :
    EditFile editFs editPath [⟨gs "hello", gs "hi"⟩, ⟨gs "absent", gs "x"⟩] false
      = (.error (.couldNotApplyEdit 2), editFs) :=
  (claim_C6 editFs editPath [⟨gs "hello", gs "hi"⟩, ⟨gs "absent", gs "x"⟩] false
    (gs "hello world") (.couldNotApplyEdit 2) (by rfl) (by rfl)).1

/-- C5 witness: the general parts of the cycle theorem applied at a
concrete already-visited directory and a concrete fuel/depth pair. -/
theorem claim_C5_witness :
    buildTree cycEnv bPv cycFs 5 (gs "/b") [realKeyOf cycEnv (gs "/b")] 0
        = (.ok [], [realKeyOf cycEnv (gs "/b")]) ∧
      (buildTree cycEnv bPv cycFs 21 (gs "/b") [] 0).1
        ≠ .error .fuelExhausted := by
  constructor
  · exact claim_C5.2.1 cycEnv bPv cycFs 4 (gs "/b") [realKeyOf cycEnv (gs "/b")] 0
      (by decide) (by simp)
  · exact claim_C5.2.2 cycEnv bPv cycFs 21 (gs "/b") [] 0 (by decide)

end GoFs
